import Mathlib

/-!
Verification of the Solana C++ SDK core (`src/solana.hpp`) against its
natural-language specification.

The development shallowly embeds the data model and the operations of the
SDK core: the 32-byte address type and its base-58 codec, program-derived
address derivation, the transaction-message compiler
(`Transaction::Message::compile`), the wire serializer
(`CompiledTransaction::Message::serialize`), the `Result<T>` envelope
decoder, and the `Keypair` constructor.  Bytes are modelled as `Nat`
values below 256; machine-integer truncation (`uint8_t`) is modelled with
explicit `% 256`.  Fallible code returns `Except String`.
-/

namespace Solana

/-- A byte of the wire format, a `Nat` kept below 256 by construction. -/
abbrev Byte := Nat

/-- `PublicKey`: 32 bytes (`std::array<uint8_t, 32>`), modelled as a list. -/
abbrev Address := List Byte

/-- `PublicKey::operator<`: lexicographic byte comparison, looping over the
bytes in order; exhausting the loop yields `false`. -/
def lexLt : Address → Address → Bool
  | [], _ => false
  | _ :: _, [] => false
  | a :: as, b :: bs => if a < b then true else if b < a then false else lexLt as bs

/-- `Transaction::Message::Instruction::AccountMeta`: an address plus the
signer and writable flags.  In the source, `operator==` compares the
`pubkey` field only; the embedding spells that comparison out at each
use site. -/
structure AccountMeta where
  pubkey : Address
  isSigner : Bool
  isWritable : Bool
deriving DecidableEq

/-- `Transaction::Message::Instruction`: a program id, ordered account
metas, and an opaque byte payload. -/
structure Instruction where
  programId : Address
  accounts : List AccountMeta
  data : List Byte
deriving DecidableEq

/-- `Keypair`: a 64-byte secret key plus the public key. -/
structure Keypair where
  secretKey : List Byte
  publicKey : Address
deriving DecidableEq

/-- `TransactionMessageHeader`: the three `uint8_t` counters. -/
structure MessageHeader where
  numRequiredSignatures : Nat
  numReadonlySignedAccounts : Nat
  numReadonlyUnsignedAccounts : Nat
deriving DecidableEq

/-- `CompiledTransaction::Message::Instruction`: indices into the account
key list (`uint8_t`) plus the payload. -/
structure CompiledInstruction where
  accounts : List Nat
  data : List Byte
  programIdIndex : Nat
deriving DecidableEq

/-- `CompiledTransaction::Message`: header, deduplicated account keys,
blockhash, compiled instructions. -/
structure CompiledMessage where
  header : MessageHeader
  accountKeys : List Address
  recentBlockhash : Address
  instructions : List CompiledInstruction
deriving DecidableEq

/-- `Transaction::Message`: the pre-compilation message. -/
structure TxMessage where
  header : MessageHeader
  accountKeys : List Address
  recentBlockhash : Address
  instructions : List Instruction

/-- The body of the first loop of `compile` (solana.hpp:830-833): include
the meta only when no meta with its address is present yet (`std::find`
uses the pubkey-only `operator==`). -/
def includeAccountMeta (metas : List AccountMeta) (account : AccountMeta) :
    List AccountMeta :=
  if metas.any (fun m => m.pubkey = account.pubkey) then metas
  else metas ++ [account]

/-- The inner loop of solana.hpp:829-834: walk one instruction's account
metas in order. -/
def collectInstructionMetas (metas : List AccountMeta) (instr : Instruction) :
    List AccountMeta :=
  instr.accounts.foldl includeAccountMeta metas

/-- First loop of `compile` (solana.hpp:827-835): walk the instructions in
order and include each referenced `AccountMeta` the first time its
address is seen. -/
def collectAccountMetas (instructions : List Instruction) : List AccountMeta :=
  instructions.foldl collectInstructionMetas []

/-- The body of the second loop of `compile` (solana.hpp:839-843): if the
instruction's program id is not yet in the `programIds` accumulator,
record it there and append a non-signer, non-writable meta for it.  Note
the membership test is against `programIds` only, not against the meta
list. -/
def appendProgramStep (st : List Address × List AccountMeta)
    (instr : Instruction) : List Address × List AccountMeta :=
  if st.1.any (fun p => p = instr.programId) then st
  else (st.1 ++ [instr.programId], st.2 ++ [⟨instr.programId, false, false⟩])

/-- Second loop of `compile` (solana.hpp:837-844). -/
def appendProgramMetas (instructions : List Instruction)
    (metas : List AccountMeta) : List AccountMeta :=
  (instructions.foldl appendProgramStep ([], metas)).2

/-- The comparator passed to `std::sort` (solana.hpp:847-855): signer
first, then writable, then ascending address order. -/
def metaLt (a b : AccountMeta) : Bool :=
  if a.isSigner ≠ b.isSigner then a.isSigner
  else if a.isWritable ≠ b.isWritable then a.isWritable
  else lexLt a.pubkey b.pubkey

/-- Insert into a list sorted by `metaLt`. -/
def insertMeta (x : AccountMeta) : List AccountMeta → List AccountMeta
  | [] => [x]
  | y :: ys => if metaLt y x then y :: insertMeta x ys else x :: y :: ys

/-- `std::sort(accountMetas, metaLt)` (solana.hpp:847-855), modelled as
insertion sort with the same comparator.  Elements tied under `metaLt`
agree on both flags and (for the 32-byte addresses in play) on the
pubkey, so every comparison sort with this comparator produces the same
list. -/
def sortMetas : List AccountMeta → List AccountMeta
  | [] => []
  | x :: xs => insertMeta x (sortMetas xs)

/-- Fee-payer step (solana.hpp:857-870): `std::find` the first meta whose
pubkey equals `signers[0]`'s; if found, erase it and re-insert it at the
front with both flags forced true; otherwise synthesize that entry at
the front. -/
def promoteFeePayer (feePayer : Address) (metas : List AccountMeta) :
    List AccountMeta :=
  if metas.any (fun m => m.pubkey = feePayer) then
    ⟨feePayer, true, true⟩ :: metas.eraseP (fun m => m.pubkey = feePayer)
  else
    ⟨feePayer, true, true⟩ :: metas

/-- State of the counting/partitioning loop (solana.hpp:872-892). -/
structure SplitState where
  numRequiredSignatures : Nat
  numReadonlySignedAccounts : Nat
  numReadonlyUnsignedAccounts : Nat
  signedKeys : List Address
  unsignedKeys : List Address
deriving DecidableEq

/-- One iteration of the counting/partitioning loop.  The three counters
are `uint8_t` in the source, hence the `% 256`. -/
def splitStep (st : SplitState) (m : AccountMeta) : SplitState :=
  if m.isSigner then
    { st with
      signedKeys := st.signedKeys ++ [m.pubkey]
      numRequiredSignatures := (st.numRequiredSignatures + 1) % 256
      numReadonlySignedAccounts :=
        if !m.isWritable then (st.numReadonlySignedAccounts + 1) % 256
        else st.numReadonlySignedAccounts }
  else
    { st with
      unsignedKeys := st.unsignedKeys ++ [m.pubkey]
      numReadonlyUnsignedAccounts :=
        if !m.isWritable then (st.numReadonlyUnsignedAccounts + 1) % 256
        else st.numReadonlyUnsignedAccounts }

/-- The counting/partitioning loop (solana.hpp:872-892). -/
def splitAndCount (metas : List AccountMeta) : SplitState :=
  metas.foldl splitStep ⟨0, 0, 0, [], []⟩

/-- Inner loop of instruction compilation (solana.hpp:899-906): map each
referenced account to its index in the final key list, throwing
`"Unknown account"` when `std::find` reaches the end.  The index is
pushed into a `std::vector<uint8_t>`, hence the `% 256`. -/
def compileAccountIndexes (keys : List Address) :
    List AccountMeta → Except String (List Nat)
  | [] => Except.ok []
  | a :: rest =>
    let idx := keys.findIdx (fun k => k = a.pubkey)
    if idx = keys.length then Except.error "Unknown account"
    else (compileAccountIndexes keys rest).map (fun is => (idx % 256) :: is)

/-- Compilation of one instruction (solana.hpp:899-911).  The program
index is `(uint8_t)(std::find(...) - begin())` with no end-check, hence
`findIdx % 256` (an absent program id would silently truncate, not
throw). -/
def compileOneInstruction (keys : List Address) (instr : Instruction) :
    Except String CompiledInstruction :=
  (compileAccountIndexes keys instr.accounts).map fun accIdx =>
    { accounts := accIdx
      data := instr.data
      programIdIndex := (keys.findIdx (fun k => k = instr.programId)) % 256 }

/-- The instruction-compilation loop (solana.hpp:897-912). -/
def compileInstructions (keys : List Address) :
    List Instruction → Except String (List CompiledInstruction)
  | [] => Except.ok []
  | i :: rest =>
    match compileOneInstruction keys i with
    | Except.error e => Except.error e
    | Except.ok ci =>
      match compileInstructions keys rest with
      | Except.error e => Except.error e
      | Except.ok cis => Except.ok (ci :: cis)

/-- `Transaction::Message::compile` (solana.hpp:814-924). -/
def compile (msg : TxMessage) (signers : List Keypair) :
    Except String CompiledMessage :=
  if msg.instructions.isEmpty then Except.error "No instructions provided"
  else
    match signers with
    | [] => Except.error "No signers provided"
    | s0 :: _ =>
      let metas0 := collectAccountMetas msg.instructions
      let metas1 := appendProgramMetas msg.instructions metas0
      let metas2 := sortMetas metas1
      let metas3 := promoteFeePayer s0.publicKey metas2
      let st := splitAndCount metas3
      let accountKeys := st.signedKeys ++ st.unsignedKeys
      (compileInstructions accountKeys msg.instructions).map fun cis =>
        { header := ⟨st.numRequiredSignatures, st.numReadonlySignedAccounts,
                     st.numReadonlyUnsignedAccounts⟩
          accountKeys := accountKeys
          recentBlockhash := msg.recentBlockhash
          instructions := cis }

/-! ## JSON values and the `Result<T>` envelope -/

/-- A JSON value, as handled by the nlohmann `json` type used in the
source. -/
inductive Json where
  | null : Json
  | bool (b : Bool) : Json
  | num (n : Int) : Json
  | str (s : String) : Json
  | arr (elems : List Json) : Json
  | obj (fields : List (String × Json)) : Json

/-- `j.contains(key)`: true only on objects holding the key. -/
def Json.containsKey : Json → String → Bool
  | Json.obj fields, k => fields.any (fun f => f.1 = k)
  | _, _ => false

/-- `j[key]` lookup (first matching field; `null` when absent). -/
def Json.lookup : Json → String → Json
  | Json.obj fields, k =>
    match fields.find? (fun f => f.1 = k) with
    | some f => f.2
    | none => Json.null
  | _, _ => Json.null

/-- `j.is_null()`. -/
def Json.isNull : Json → Bool
  | Json.null => true
  | _ => false

/-- `j.get<int64_t>()`, restricted to the numeric case the decoders hit. -/
def Json.getInt : Json → Int
  | Json.num n => n
  | _ => 0

/-- `j.get<std::string>()`, restricted to the string case. -/
def Json.getStr : Json → String
  | Json.str s => s
  | _ => ""

/-- `ResultError`: remote error code and message. -/
structure ResultError where
  code : Int
  message : String
deriving DecidableEq

/-- `from_json(const json&, ResultError&)` (solana.hpp:498-501). -/
def fromJsonResultError (j : Json) : ResultError :=
  ⟨(j.lookup "code").getInt, (j.lookup "message").getStr⟩

/-- Modelled from the spec: the execution context optionally carried by a
context-wrapped value.  Its type (`Context`) lives in `many.hpp`, which
is not under src/; the envelope claims do not depend on its payload, so
it is retained as the raw JSON it was decoded from. -/
structure Context where
  raw : Json

/-- `Result<T>` (solana.hpp:503-528): three optionals. -/
structure Result (T : Type) where
  _context : Option Context
  _result : Option T
  _error : Option ResultError

/-- `from_json(const json&, Result<T>&)` (solana.hpp:530-549), acting on a
default-constructed `Result`.  `getT` models `j.get<T>()`. -/
def fromJsonResult {T : Type} (getT : Json → T) (j : Json) : Result T :=
  let r : Result T := ⟨none, none, none⟩
  if j.containsKey "result" then
    let r :=
      if (j.lookup "result").containsKey "context" then
        { r with _context := some ⟨(j.lookup "result").lookup "context"⟩ }
      else r
    if (j.lookup "result").containsKey "value" then
      if !((j.lookup "result").lookup "value").isNull then
        { r with _result := some (getT ((j.lookup "result").lookup "value")) }
      else r
    else
      if !(j.lookup "result").isNull then
        { r with _result := some (getT (j.lookup "result")) }
      else r
  else if j.containsKey "error" then
    { r with _error := some (fromJsonResultError (j.lookup "error")) }
  else r

/-! ## The `Keypair` secret-key constructor -/

/-- `Keypair::Keypair(std::array<char, PUBLIC_KEY_LENGTH>, bool)`
(solana.hpp:296-304).  The parameter type is
`std::array<char, PUBLIC_KEY_LENGTH>` — 32 bytes, not the 64-byte
`PRIVATE_KEY_LENGTH` — and the parameter shadows the `secretKey` member,
which the body never writes; the member keeps its indeterminate initial
contents, modelled by the explicit `memorySecretKey` argument.  The
`publicKey` member is value-initialized to all zeros; unless validation
is skipped, `crypto_sign_ed25519_sk_to_pk` (external libsodium, modelled
by the abstract `skToPk` argument) overwrites it with the key it derives
from the 32 parameter bytes, and a nonzero return code throws. -/
def keypairFromSecretBytes (skToPk : List Byte → Option Address)
    (memorySecretKey : List Byte) (secretKey : List Byte)
    (skipValidation : Bool) : Except String Keypair :=
  if skipValidation then
    Except.ok ⟨memorySecretKey, List.replicate 32 0⟩
  else
    match skToPk secretKey with
    | none => Except.error "invalid secret key"
    | some pk => Except.ok ⟨memorySecretKey, pk⟩

/-! ## SHA-256 (FIPS 180-4), the hash used by `create_program_address`
(`crypto_hash_sha256`) -/

/-- 2^32, the modulus of the 32-bit word arithmetic. -/
def word32 : Nat := 4294967296

/-- Rotate a 32-bit word right by `n`. -/
def rotr (n x : Nat) : Nat := ((x >>> n) ||| (x <<< (32 - n))) % word32

/-- The 64 SHA-256 round constants. -/
def sha256K : List Nat :=
  [1116352408, 1899447441, 3049323471, 3921009573, 961987163,
   1508970993, 2453635748, 2870763221, 3624381080, 310598401,
   607225278, 1426881987, 1925078388, 2162078206, 2614888103,
   3248222580, 3835390401, 4022224774, 264347078, 604807628,
   770255983, 1249150122, 1555081692, 1996064986, 2554220882,
   2821834349, 2952996808, 3210313671, 3336571891, 3584528711,
   113926993, 338241895, 666307205, 773529912, 1294757372,
   1396182291, 1695183700, 1986661051, 2177026350, 2456956037,
   2730485921, 2820302411, 3259730800, 3345764771, 3516065817,
   3600352804, 4094571909, 275423344, 430227734, 506948616,
   659060556, 883997877, 958139571, 1322822218, 1537002063,
   1747873779, 1955562222, 2024104815, 2227730452, 2361852424,
   2428436474, 2756734187, 3204031479, 3329325298]

/-- The initial SHA-256 state. -/
def sha256H0 : List Nat :=
  [1779033703, 3144134277, 1013904242, 2773480762,
   1359893119, 2600822924, 528734635, 1541459225]

/-- Write `n` as `len` big-endian bytes. -/
def natToBytes : Nat → Nat → List Byte
  | 0, _ => []
  | len + 1, n => natToBytes len (n / 256) ++ [n % 256]

/-- SHA-256 padding: `0x80`, zeros to 56 mod 64, then the bit length as 8
big-endian bytes. -/
def sha256Pad (msg : List Byte) : List Byte :=
  msg ++ [128] ++ List.replicate ((120 - ((msg.length + 1) % 64)) % 64) 0
      ++ natToBytes 8 (8 * msg.length)

/-- Group bytes into big-endian 32-bit words. -/
def toWords : List Byte → List Nat
  | b0 :: b1 :: b2 :: b3 :: rest =>
    (((b0 * 256 + b1) * 256 + b2) * 256 + b3) :: toWords rest
  | _ => []

/-- Split a byte list into 64-byte blocks. -/
def chunk64 : List Byte → List (List Byte)
  | [] => []
  | b :: rest => List.take 64 (b :: rest) :: chunk64 (List.drop 63 rest)
termination_by l => l.length
decreasing_by simp [List.length_drop]; omega

/-- σ₀ of the message schedule. -/
def smallSigma0 (x : Nat) : Nat := rotr 7 x ^^^ rotr 18 x ^^^ (x >>> 3)

/-- σ₁ of the message schedule. -/
def smallSigma1 (x : Nat) : Nat := rotr 17 x ^^^ rotr 19 x ^^^ (x >>> 10)

/-- Extend the 16-word schedule to 64 words (`fuel` = 48 steps). -/
def extendSchedule : Nat → List Nat → List Nat
  | 0, w => w
  | fuel + 1, w =>
    let n := w.length
    extendSchedule fuel
      (w ++ [(smallSigma1 (w.getD (n - 2) 0) + w.getD (n - 7) 0
              + smallSigma0 (w.getD (n - 15) 0) + w.getD (n - 16) 0) % word32])

/-- Σ₀ of the compression function. -/
def bigSigma0 (x : Nat) : Nat := rotr 2 x ^^^ rotr 13 x ^^^ rotr 22 x

/-- Σ₁ of the compression function. -/
def bigSigma1 (x : Nat) : Nat := rotr 6 x ^^^ rotr 11 x ^^^ rotr 25 x

/-- The Ch function (`not x` as xor with the 32-bit mask). -/
def chFun (x y z : Nat) : Nat := (x &&& y) ^^^ ((x ^^^ 4294967295) &&& z)

/-- The Maj function. -/
def majFun (x y z : Nat) : Nat := (x &&& y) ^^^ (x &&& z) ^^^ (y &&& z)

/-- One compression round; the state is the 8 words `a..h`. -/
def sha256Round (st : List Nat) (kw : Nat × Nat) : List Nat :=
  let a := st.getD 0 0
  let b := st.getD 1 0
  let c := st.getD 2 0
  let d := st.getD 3 0
  let e := st.getD 4 0
  let f := st.getD 5 0
  let g := st.getD 6 0
  let h := st.getD 7 0
  let t1 := (h + bigSigma1 e + chFun e f g + kw.1 + kw.2) % word32
  let t2 := (bigSigma0 a + majFun a b c) % word32
  [(t1 + t2) % word32, a, b, c, (d + t1) % word32, e, f, g]

/-- Process one 64-byte block. -/
def processBlock (h : List Nat) (block : List Byte) : List Nat :=
  let w := extendSchedule 48 (toWords block)
  let st := (sha256K.zip w).foldl sha256Round h
  (h.zip st).map (fun p => (p.1 + p.2) % word32)

/-- SHA-256 of a byte sequence, as a 32-byte digest. -/
def sha256 (msg : List Byte) : List Byte :=
  (((chunk64 (sha256Pad msg)).foldl processBlock sha256H0).map
    (natToBytes 4)).flatten

/-! ## Program-derived addresses -/

/-- `MAX_SEED_LENGTH` (solana.hpp:53). -/
def MAX_SEED_LENGTH : Nat := 32

/-- The ASCII bytes of the literal `"ProgramDerivedAddress"`. -/
def pdaMarker : List Byte := "ProgramDerivedAddress".toList.map Char.toNat

/-- The seed-concatenation loop of `create_program_address`
(solana.hpp:211-217): throw on the first seed longer than
`MAX_SEED_LENGTH`, otherwise append. -/
def buildSeedBuffer (seeds : List (List Byte)) : Except String (List Byte) :=
  seeds.foldl
    (fun acc seed =>
      match acc with
      | Except.error e => Except.error e
      | Except.ok buf =>
        if seed.length > MAX_SEED_LENGTH then
          Except.error "Max seed length exceeded"
        else Except.ok (buf ++ seed))
    (Except.ok [])

/-- `PublicKey::create_program_address` (solana.hpp:207-233).  The
ed25519 curve-membership test (`PublicKey::is_on_curve`, which calls
external libsodium point decoding) is kept abstract as the `isOnCurve`
argument. -/
def create_program_address (isOnCurve : Address → Bool)
    (seeds : List (List Byte)) (program_id : Address) :
    Except String (Option Address) :=
  match buildSeedBuffer seeds with
  | Except.error e => Except.error e
  | Except.ok buf =>
    let pubkey := sha256 (buf ++ program_id ++ pdaMarker)
    if isOnCurve pubkey then Except.ok none else Except.ok (some pubkey)

/-- The nonce loop of `PublicKey::find_program_address`
(solana.hpp:245-262): the argument is the current nonce; the loop runs
while it is nonzero, appending the one-byte seed `{nonce}` and returning
the first accepted derivation. -/
def findNonceLoop (isOnCurve : Address → Bool) (seeds : List (List Byte))
    (programId : Address) : Nat → Except String (Address × Nat)
  | 0 => Except.error "Unable to find a viable program address nonce"
  | n + 1 =>
    match create_program_address isOnCurve (seeds ++ [[n + 1]]) programId with
    | Except.error e => Except.error e
    | Except.ok (some address) => Except.ok (address, n + 1)
    | Except.ok none => findNonceLoop isOnCurve seeds programId n

/-- `PublicKey::find_program_address` (solana.hpp:245-262): search the
nonce from 255 down. -/
def find_program_address (isOnCurve : Address → Bool)
    (seeds : List (List Byte)) (programId : Address) :
    Except String (Address × Nat) :=
  findNonceLoop isOnCurve seeds programId 255

/-- The digest a seed-valid derivation hashes: all seeds in order, the
program bytes, the marker. -/
def pdaDigest (seeds : List (List Byte)) (pid : Address) : Address :=
  sha256 (seeds.flatten ++ pid ++ pdaMarker)

/-! ## The wire serializer -/

/-- Modelled from the spec: the compact-length encoding (`encode_length`
lives in `many.hpp`, not under src/) — base-128 little-endian with a
continuation bit: values 0-127 are one byte; otherwise emit
`n % 128 + 128` and continue with `n / 128`. -/
def encode_length (n : Nat) : List Byte :=
  if n < 128 then [n] else (n % 128 + 128) :: encode_length (n / 128)
termination_by n
decreasing_by exact Nat.div_lt_self (by omega) (by omega)

/-- The per-instruction body of `serialize` (solana.hpp:705-719):
program index byte, compact account-index count, the index bytes,
compact payload length, payload bytes — each pushed onto the buffer. -/
def serializeInstruction (buf : List Byte) (ci : CompiledInstruction) :
    List Byte :=
  let buf := buf ++ [ci.programIdIndex]
  let buf := buf ++ encode_length ci.accounts.length
  let buf := ci.accounts.foldl (fun b i => b ++ [i]) buf
  let buf := buf ++ encode_length ci.data.length
  buf ++ ci.data

/-- `CompiledTransaction::Message::serialize` (solana.hpp:682-720),
written as the same sequence of appends onto the caller's buffer. -/
def serializeMessage (serialized_message : List Byte)
    (m : CompiledMessage) : Except String (List Byte) :=
  if serialized_message.length > 0 then
    Except.error "Message is already serialized"
  else if m.header.numRequiredSignatures = 0 then
    Except.error "Message must have at least one signature"
  else
    let buf := serialized_message ++
      [m.header.numRequiredSignatures, m.header.numReadonlySignedAccounts,
       m.header.numReadonlyUnsignedAccounts]
    let buf := buf ++ encode_length m.accountKeys.length
    let buf := m.accountKeys.foldl (fun b k => b ++ k) buf
    let buf := buf ++ m.recentBlockhash
    let buf := buf ++ encode_length m.instructions.length
    Except.ok (m.instructions.foldl serializeInstruction buf)

/-! ## The base-58 codec -/

/-- Modelled from the spec: the base-58 alphabet of the codec
(`base58::b58enc` / `base58::b58tobin` live in `many.hpp`, not under
src/). -/
def b58Alphabet : List Char :=
  "123456789ABCDEFGHJKLMNPQRSTUVWXYZabcdefghijkmnopqrstuvwxyz".toList

/-- Modelled from the spec: the character of one base-58 digit. -/
def b58Char (d : Nat) : Char := b58Alphabet.getD d '1'

/-- Modelled from the spec: the digit value of one base-58 character. -/
def b58Value (c : Char) : Nat := b58Alphabet.findIdx (fun a => a = c)

/-- The bytes read as a big-endian number. -/
def bytesToNat (bytes : List Byte) : Nat :=
  bytes.foldl (fun acc b => acc * 256 + b) 0

/-- Modelled from the spec: `PublicKey::to_base58` via `base58::b58enc` —
one `'1'` per leading zero byte, then the base-58 digits of the value,
most significant first. -/
def to_base58 (bytes : List Byte) : String :=
  ⟨List.replicate (bytes.takeWhile (fun b => b = 0)).length '1'
    ++ ((Nat.digits 58 (bytesToNat bytes)).reverse.map b58Char)⟩

/-- Modelled from the spec: `PublicKey::PublicKey(const std::string&)`
via `base58::b58tobin` into the fixed 32-byte buffer — parse the digits
and write the value as 32 big-endian bytes. -/
def from_base58 (s : String) : Address :=
  natToBytes 32 (s.data.foldl (fun acc c => acc * 58 + b58Value c) 0)

/-- The account-meta list after dedup, program append, sort and fee-payer
promotion — the list the header counters and key list are computed
from. -/
def promotedMetas (msg : TxMessage) (feePayer : Address) : List AccountMeta :=
  promoteFeePayer feePayer
    (sortMetas (appendProgramMetas msg.instructions
      (collectAccountMetas msg.instructions)))

/-- The final account key list of a compilation: signed keys then
unsigned keys. -/
def finalAccountKeys (msg : TxMessage) (feePayer : Address) : List Address :=
  (splitAndCount (promotedMetas msg feePayer)).signedKeys
    ++ (splitAndCount (promotedMetas msg feePayer)).unsignedKeys

/-! ## Spec-side wire-layout descriptions (for the refinement claims) -/

/-- The spec's per-instruction byte layout: 1 byte program index,
compact-length of the account index count, 1 byte per account index,
compact-length of the payload length, the raw payload. -/
def instructionWireLayout (ci : CompiledInstruction) : List Byte :=
  [ci.programIdIndex] ++ encode_length ci.accounts.length ++ ci.accounts
    ++ encode_length ci.data.length ++ ci.data

/-- The spec's message byte layout: 3 raw header bytes, compact-length of
the account key count, each address's 32 raw bytes in order, the raw
blockhash bytes, compact-length of the instruction count, then each
instruction's layout. -/
def messageWireLayout (m : CompiledMessage) : List Byte :=
  [m.header.numRequiredSignatures, m.header.numReadonlySignedAccounts,
   m.header.numReadonlyUnsignedAccounts]
    ++ encode_length m.accountKeys.length ++ m.accountKeys.flatten
    ++ m.recentBlockhash ++ encode_length m.instructions.length
    ++ (m.instructions.map instructionWireLayout).flatten

/-! ## Concrete inputs used by counterexamples and witnesses -/

/-- A program address whose bytes start with 1. -/
def cxProgram : Address := 1 :: List.replicate 31 0

/-- A fee-payer address whose bytes start with 2. -/
def cxFeePayer : Address := 2 :: List.replicate 31 0

/-- A transaction whose single instruction also references its own
program address as an account. -/
def cxMsgDupProgram : TxMessage :=
  ⟨⟨0, 0, 0⟩, [], List.replicate 32 0,
   [⟨cxProgram, [⟨cxProgram, false, false⟩], [7]⟩]⟩

/-- The signer whose address is `cxFeePayer`. -/
def cxSigner : Keypair := ⟨List.replicate 64 3, cxFeePayer⟩

/-- 256 distinct writable signer metas (addresses `i :: 0...`). -/
def overflowMetas : List AccountMeta :=
  (List.range 256).map (fun i => ⟨i :: List.replicate 31 0, true, true⟩)

/-- A transaction whose single instruction references 256 distinct
signer accounts. -/
def cxMsgOverflow : TxMessage :=
  ⟨⟨0, 0, 0⟩, [], List.replicate 32 0, [⟨cxProgram, overflowMetas, []⟩]⟩

/-- The signer whose address is the first overflow meta's address. -/
def cxSignerZero : Keypair := ⟨List.replicate 64 3, 0 :: List.replicate 31 0⟩

/-- A JSON-RPC response carrying both a `result` member and an `error`
object. -/
def cxJsonBothFields : Json :=
  Json.obj [("result", Json.num 5),
            ("error", Json.obj [("code", Json.num 77),
                                ("message", Json.str "boom")])]

/-- A small compiled message with two account keys and one instruction,
used to exercise the serializer. -/
def wMsg : CompiledMessage :=
  ⟨⟨1, 0, 1⟩, [2 :: List.replicate 31 0, 1 :: List.replicate 31 0],
   List.replicate 32 9, [⟨[0], [7, 7], 1⟩]⟩

/-- A small transaction (fee payer `cxFeePayer`, one transfer-shaped
instruction under program `cxProgram`) used by compile witnesses. -/
def wMsgTx : TxMessage :=
  ⟨⟨0, 0, 0⟩, [], List.replicate 32 9,
   [⟨cxProgram, [⟨cxFeePayer, true, true⟩, ⟨3 :: List.replicate 31 0, false, true⟩],
     [2, 0, 0, 0]⟩]⟩

/-- The compiled message `compile wMsgTx [cxSigner]` produces. -/
def wCompiled : CompiledMessage :=
  ⟨⟨1, 0, 1⟩, [cxFeePayer, 3 :: List.replicate 31 0, cxProgram],
   List.replicate 32 9, [⟨[0, 1], [2, 0, 0, 0], 2⟩]⟩

/-! ## Serializer lemmas -/

theorem foldl_push_eq_append {α : Type} (buf : List α) (l : List α) :
    l.foldl (fun b i => b ++ [i]) buf = buf ++ l := by
  induction l generalizing buf with
  | nil => simp
  | cons x xs ih => simp [List.foldl_cons, ih]

theorem foldl_concat_eq_flatten {α : Type} (buf : List α) (l : List (List α)) :
    l.foldl (fun b k => b ++ k) buf = buf ++ l.flatten := by
  induction l generalizing buf with
  | nil => simp
  | cons x xs ih => simp [List.foldl_cons, ih]

theorem serializeInstruction_eq (buf : List Byte) (ci : CompiledInstruction) :
    serializeInstruction buf ci = buf ++ instructionWireLayout ci := by
  simp [serializeInstruction, instructionWireLayout, foldl_push_eq_append,
    List.append_assoc]

theorem foldl_serializeInstruction (buf : List Byte)
    (l : List CompiledInstruction) :
    l.foldl serializeInstruction buf
      = buf ++ (l.map instructionWireLayout).flatten := by
  induction l generalizing buf with
  | nil => simp
  | cons x xs ih => simp [List.foldl_cons, serializeInstruction_eq, ih]

/-- C8: for every `CompiledMessage` on which `serialize()` succeeds with
an initially empty output buffer, the produced bytes are exactly the
spec's layout: 3 raw header bytes, compact-length of the account key
count, each address's raw bytes in list order, the raw blockhash bytes,
compact-length of the instruction count, and per instruction the program
index byte, compact account-index count, index bytes, compact payload
length and payload bytes. -/
theorem C8_serialize_layout (m : CompiledMessage) (buf : List Byte)
    (hbuf : buf = []) (hsig : m.header.numRequiredSignatures ≠ 0) :
    serializeMessage buf m = Except.ok (messageWireLayout m) := by
  subst hbuf
  simp [serializeMessage, hsig, messageWireLayout, foldl_concat_eq_flatten,
    foldl_serializeInstruction, List.append_assoc]

/-- Witness for C8 at a concrete two-key, one-instruction message. -/
theorem C8_serialize_layout_witness :
    serializeMessage [] wMsg = Except.ok (messageWireLayout wMsg) :=
  C8_serialize_layout wMsg [] rfl (by decide)

/-- C10: `serialize()` errors whenever `numRequiredSignatures == 0` (with
the message `"Message must have at least one signature"` when the output
buffer is empty), so every successfully produced byte sequence starts
with a first header byte of at least 1. -/
theorem C10_serialize_zero_signatures (m : CompiledMessage)
    (buf : List Byte) :
    (m.header.numRequiredSignatures = 0 →
      ∃ e, serializeMessage buf m = Except.error e) ∧
    (buf = [] → m.header.numRequiredSignatures = 0 →
      serializeMessage buf m
        = Except.error "Message must have at least one signature") ∧
    (∀ bs, serializeMessage buf m = Except.ok bs →
      1 ≤ m.header.numRequiredSignatures
        ∧ bs.head? = some m.header.numRequiredSignatures) := by
  refine ⟨?_, ?_, ?_⟩
  · intro h0
    by_cases hb : buf.length > 0
    · exact ⟨"Message is already serialized", by simp [serializeMessage, hb]⟩
    · exact ⟨"Message must have at least one signature",
        by simp [serializeMessage, hb, h0]⟩
  · intro hb h0
    subst hb
    simp [serializeMessage, h0]
  · intro bs hok
    by_cases hb : buf.length > 0
    · simp [serializeMessage, hb] at hok
    · by_cases h0 : m.header.numRequiredSignatures = 0
      · simp [serializeMessage, hb, h0] at hok
      · have hbuf : buf = [] := List.length_eq_zero.mp (by omega)
        subst hbuf
        simp [serializeMessage, h0, foldl_concat_eq_flatten,
          foldl_serializeInstruction] at hok
        subst hok
        exact ⟨Nat.one_le_iff_ne_zero.mpr h0, rfl⟩

/-- Witness for C10: a header with zero required signatures is rejected
on an empty buffer. -/
theorem C10_serialize_zero_signatures_witness :
    serializeMessage [] (CompiledMessage.mk ⟨0, 0, 0⟩ [] [] [])
      = Except.error "Message must have at least one signature" :=
  (C10_serialize_zero_signatures (CompiledMessage.mk ⟨0, 0, 0⟩ [] [] [])
    []).2.1 rfl rfl

/-! ## The `Keypair` secret-key constructor (claim C3) -/

/-- C3: the secret-key constructor does not behave as documented.  Its
parameter is 32 bytes (so a 64-byte secret cannot even be passed); the
parameter shadows the `secretKey` member, so the stored secret is
whatever indeterminate memory the member held, independent of the input
bytes; and the derived key overwrites `publicKey` instead of being
compared with an embedded address.  Evaluated here at two different
putative secrets: both constructions succeed and produce identical
keypairs whose stored secret is the initial memory, and with
`skipValidation=true` the public key is left zero-initialized. -/
theorem C3_keypair_secret_not_stored :
    keypairFromSecretBytes (fun _ => some (List.replicate 32 5))
        (List.replicate 64 9) (List.replicate 32 1) false
      = Except.ok ⟨List.replicate 64 9, List.replicate 32 5⟩ ∧
    keypairFromSecretBytes (fun _ => some (List.replicate 32 5))
        (List.replicate 64 9) (List.replicate 32 2) false
      = Except.ok ⟨List.replicate 64 9, List.replicate 32 5⟩ ∧
    (List.replicate 32 1 : List Byte) ≠ List.replicate 32 2 ∧
    keypairFromSecretBytes (fun _ => some (List.replicate 32 5))
        (List.replicate 64 9) (List.replicate 32 1) true
      = Except.ok ⟨List.replicate 64 9, List.replicate 32 0⟩ :=
  ⟨rfl, rfl, by decide, rfl⟩

/-! ## The `Result<T>` envelope (claim C2) -/

/-- C2 counterexample: a response carrying both a `result` member and an
`error` object decodes with the value slot populated and the error slot
empty — the error object is ignored, contradicting "whenever the source
response contains an error object, only the error slot is populated,
regardless of what else the response contains". -/
theorem C2_both_fields_counterexample :
    (fromJsonResult Json.getInt cxJsonBothFields)._error = none ∧
    (fromJsonResult Json.getInt cxJsonBothFields)._result = some 5 ∧
    cxJsonBothFields.containsKey "error" = true :=
  ⟨rfl, rfl, rfl⟩

/-- C2 (amended): at most one of {value, error} is ever populated;
whenever the response contains a `result` member — even alongside an
error object — the error slot is left empty (the error object is
ignored); and whenever the response contains an error object and no
`result` member, only the error slot (code + message) is populated. -/
theorem C2_amended_result_priority {T : Type} (getT : Json → T) (j : Json) :
    ((fromJsonResult getT j)._result = none
      ∨ (fromJsonResult getT j)._error = none) ∧
    (j.containsKey "result" = true → (fromJsonResult getT j)._error = none) ∧
    (j.containsKey "error" = true → j.containsKey "result" = false →
      (fromJsonResult getT j)._result = none ∧
      (fromJsonResult getT j)._error
        = some (fromJsonResultError (j.lookup "error"))) := by
  by_cases hr : j.containsKey "result"
  · have herrnone : (fromJsonResult getT j)._error = none := by
      simp only [fromJsonResult, hr, if_true]
      split
      · split
        · split <;> rfl
        · split <;> rfl
      · split
        · split <;> rfl
        · split <;> rfl
    refine ⟨Or.inr herrnone, fun _ => herrnone, ?_⟩
    intro _ hnor
    rw [hr] at hnor
    exact absurd hnor (by simp)
  · have hr' : j.containsKey "result" = false := by simpa using hr
    refine ⟨?_, ?_, ?_⟩
    · left
      simp only [fromJsonResult, hr', Bool.false_eq_true, if_false]
      split <;> rfl
    · intro hc
      exact absurd hc hr
    · intro herr _
      simp [fromJsonResult, hr', herr]

/-- Witness for C2 (amended) at an error-only response. -/
theorem C2_amended_result_priority_witness :
    (fromJsonResult Json.getInt
        (Json.obj [("error", Json.obj [("code", Json.num 7),
                                       ("message", Json.str "x")])]))._result
      = none ∧
    (fromJsonResult Json.getInt
        (Json.obj [("error", Json.obj [("code", Json.num 7),
                                       ("message", Json.str "x")])]))._error
      = some (fromJsonResultError
          ((Json.obj [("error", Json.obj [("code", Json.num 7),
                                          ("message", Json.str "x")])]).lookup
            "error")) :=
  (C2_amended_result_priority Json.getInt _).2.2 rfl rfl

/-! ## Program-derived addresses (claims C6, C7) -/

theorem foldl_seed_error (seeds : List (List Byte)) (e : String) :
    seeds.foldl
      (fun acc seed =>
        match acc with
        | Except.error e => Except.error e
        | Except.ok buf =>
          if seed.length > MAX_SEED_LENGTH then
            Except.error "Max seed length exceeded"
          else Except.ok (buf ++ seed))
      (Except.error e) = Except.error e := by
  induction seeds with
  | nil => rfl
  | cons s ss ih => simpa using ih

theorem buildSeedBuffer_aux (seeds : List (List Byte)) (buf : List Byte) :
    seeds.foldl
      (fun acc seed =>
        match acc with
        | Except.error e => Except.error e
        | Except.ok buf =>
          if seed.length > MAX_SEED_LENGTH then
            Except.error "Max seed length exceeded"
          else Except.ok (buf ++ seed))
      (Except.ok buf)
    = if seeds.any (fun s => decide (s.length > MAX_SEED_LENGTH)) then
        Except.error "Max seed length exceeded"
      else Except.ok (buf ++ seeds.flatten) := by
  induction seeds generalizing buf with
  | nil => simp
  | cons s ss ih =>
    by_cases hs : s.length > MAX_SEED_LENGTH
    · simp [hs, foldl_seed_error]
    · simp [hs, ih, List.append_assoc]

theorem buildSeedBuffer_spec (seeds : List (List Byte)) :
    buildSeedBuffer seeds
    = if seeds.any (fun s => decide (s.length > MAX_SEED_LENGTH)) then
        Except.error "Max seed length exceeded"
      else Except.ok seeds.flatten := by
  simpa using buildSeedBuffer_aux seeds []

theorem create_program_address_eq (isOnCurve : Address → Bool)
    (seeds : List (List Byte)) (pid : Address) :
    create_program_address isOnCurve seeds pid
    = if seeds.any (fun s => decide (s.length > MAX_SEED_LENGTH)) then
        Except.error "Max seed length exceeded"
      else if isOnCurve (pdaDigest seeds pid) then Except.ok none
      else Except.ok (some (pdaDigest seeds pid)) := by
  unfold create_program_address
  rw [buildSeedBuffer_spec]
  by_cases hl : seeds.any (fun s => decide (s.length > MAX_SEED_LENGTH))
  · simp [hl]
  · simp only [hl, Bool.false_eq_true, if_false]
    rfl

theorem create_ok_some (isOnCurve : Address → Bool)
    (seeds : List (List Byte)) (pid : Address) (a : Address)
    (h : create_program_address isOnCurve seeds pid = Except.ok (some a)) :
    a = sha256 (seeds.flatten ++ pid ++ pdaMarker) ∧ isOnCurve a = false := by
  rw [create_program_address_eq] at h
  by_cases hl : seeds.any (fun s => decide (s.length > MAX_SEED_LENGTH))
  · simp [hl] at h
  · simp only [hl, Bool.false_eq_true, if_false] at h
    by_cases hic : isOnCurve (pdaDigest seeds pid) = true
    · simp [hic] at h
    · have hic' : isOnCurve (pdaDigest seeds pid) = false := by simpa using hic
      simp only [hic', Bool.false_eq_true, if_false, Except.ok.injEq,
        Option.some.injEq] at h
      subst h
      exact ⟨rfl, hic'⟩

theorem create_ok_none (isOnCurve : Address → Bool)
    (seeds : List (List Byte)) (pid : Address)
    (h : create_program_address isOnCurve seeds pid = Except.ok none) :
    isOnCurve (sha256 (seeds.flatten ++ pid ++ pdaMarker)) = true := by
  rw [create_program_address_eq] at h
  by_cases hl : seeds.any (fun s => decide (s.length > MAX_SEED_LENGTH))
  · simp [hl] at h
  · simp only [hl, Bool.false_eq_true, if_false] at h
    by_cases hic : isOnCurve (pdaDigest seeds pid) = true
    · exact hic
    · simp [hic] at h

theorem create_error_string (isOnCurve : Address → Bool)
    (seeds : List (List Byte)) (pid : Address) (e : String)
    (h : create_program_address isOnCurve seeds pid = Except.error e) :
    e = "Max seed length exceeded" := by
  rw [create_program_address_eq] at h
  by_cases hl : seeds.any (fun s => decide (s.length > MAX_SEED_LENGTH))
  · simp [hl] at h
    exact h.symm
  · simp only [hl, Bool.false_eq_true, if_false] at h
    by_cases hic : isOnCurve (pdaDigest seeds pid) = true <;>
      simp [hic] at h

/-- C6: `create_program_address` fails with `"Max seed length exceeded"`
iff some seed exceeds 32 bytes; otherwise it hashes the concatenation of
the seeds in order, the program bytes, and the ASCII marker
`"ProgramDerivedAddress"` with SHA-256, returns no address exactly when
the digest lies on the curve, and returns the digest itself otherwise.
(Purity and determinism in (seeds, program) are intrinsic: the embedding
is a function of those inputs.) -/
theorem C6_create_program_address_spec (isOnCurve : Address → Bool)
    (seeds : List (List Byte)) (program_id : Address) :
    ((∃ s ∈ seeds, s.length > MAX_SEED_LENGTH) ↔
      create_program_address isOnCurve seeds program_id
        = Except.error "Max seed length exceeded") ∧
    (∀ a, create_program_address isOnCurve seeds program_id
        = Except.ok (some a) →
      a = sha256 (seeds.flatten ++ program_id ++ pdaMarker)
        ∧ isOnCurve a = false) ∧
    (create_program_address isOnCurve seeds program_id = Except.ok none →
      isOnCurve (sha256 (seeds.flatten ++ program_id ++ pdaMarker))
        = true) := by
  refine ⟨?_, fun a h => create_ok_some isOnCurve seeds program_id a h,
    fun h => create_ok_none isOnCurve seeds program_id h⟩
  constructor
  · intro hex
    have hl : seeds.any (fun s => decide (s.length > MAX_SEED_LENGTH)) := by
      simpa [List.any_eq_true] using hex
    rw [create_program_address_eq]
    simp [hl]
  · intro h
    by_contra hex
    have hl : seeds.any (fun s => decide (s.length > MAX_SEED_LENGTH)) = false := by
      simpa [List.any_eq_true] using hex
    rw [create_program_address_eq] at h
    simp only [hl, Bool.false_eq_true, if_false] at h
    by_cases hic : isOnCurve (pdaDigest seeds program_id) = true <;>
      simp [hic] at h

/-- Witness for C6: with an always-off-curve test, a one-seed derivation
returns the SHA-256 digest of seed ++ program ++ marker. -/
theorem C6_create_program_address_spec_witness :
    sha256 ([1] ++ List.replicate 32 0 ++ pdaMarker)
        = sha256 ([[1]].flatten ++ List.replicate 32 0 ++ pdaMarker) ∧
    (fun (_ : Address) => false)
        (sha256 ([[1]].flatten ++ List.replicate 32 0 ++ pdaMarker))
      = false :=
  let h := (C6_create_program_address_spec (fun _ => false) [[1]]
    (List.replicate 32 0)).2.1
    (sha256 ([1] ++ List.replicate 32 0 ++ pdaMarker)) rfl
  ⟨h.1, h.1 ▸ h.2⟩

theorem findNonceLoop_ok_spec (isOnCurve : Address → Bool)
    (seeds : List (List Byte)) (pid : Address) :
    ∀ (fuel : Nat) (a : Address) (nonce : Nat),
      findNonceLoop isOnCurve seeds pid fuel = Except.ok (a, nonce) →
      1 ≤ nonce ∧ nonce ≤ fuel ∧
      create_program_address isOnCurve (seeds ++ [[nonce]]) pid
        = Except.ok (some a) ∧
      (∀ m, nonce < m → m ≤ fuel →
        create_program_address isOnCurve (seeds ++ [[m]]) pid
          = Except.ok none) := by
  intro fuel
  induction fuel with
  | zero => intro a nonce h; simp [findNonceLoop] at h
  | succ n ih =>
    intro a nonce h
    unfold findNonceLoop at h
    cases hc : create_program_address isOnCurve (seeds ++ [[n + 1]]) pid with
    | error e => rw [hc] at h; exact absurd h (by simp)
    | ok o =>
      cases o with
      | some addr =>
        rw [hc] at h
        simp only [Except.ok.injEq, Prod.mk.injEq] at h
        obtain ⟨ha, hn⟩ := h
        subst ha; subst hn
        exact ⟨by omega, by omega, hc, fun m h1 h2 => by omega⟩
      | none =>
        rw [hc] at h
        obtain ⟨h1, h2, h3, h4⟩ := ih a nonce h
        refine ⟨h1, by omega, h3, fun m hm1 hm2 => ?_⟩
        by_cases hm : m = n + 1
        · subst hm; exact hc
        · exact h4 m hm1 (by omega)

theorem findNonceLoop_err_spec (isOnCurve : Address → Bool)
    (seeds : List (List Byte)) (pid : Address) :
    ∀ (fuel : Nat),
      findNonceLoop isOnCurve seeds pid fuel
        = Except.error "Unable to find a viable program address nonce" →
      ∀ m, 1 ≤ m → m ≤ fuel →
        create_program_address isOnCurve (seeds ++ [[m]]) pid
          = Except.ok none := by
  intro fuel
  induction fuel with
  | zero => intro _ m h1 h2; omega
  | succ n ih =>
    intro h m h1 h2
    unfold findNonceLoop at h
    cases hc : create_program_address isOnCurve (seeds ++ [[n + 1]]) pid with
    | error e =>
      rw [hc] at h
      have he : e = "Unable to find a viable program address nonce" := by
        simpa using h
      have hm : e = "Max seed length exceeded" :=
        create_error_string isOnCurve (seeds ++ [[n + 1]]) pid e hc
      rw [he] at hm
      exact absurd hm (by decide)
    | ok o =>
      cases o with
      | some addr => rw [hc] at h; exact absurd h (by simp)
      | none =>
        rw [hc] at h
        by_cases hm : m = n + 1
        · subst hm; exact hc
        · exact ih h m h1 (by omega)

/-- C7: whenever `find_program_address` returns, the pair is the first
accepted derivation searching the one-byte nonce from 255 down to 1
(every higher nonce was rejected as on-curve), the returned address is
off-curve, the nonce lies in [1, 255], and the search is deterministic
in its inputs (intrinsic to the embedding); it fails with the
`ProtocolError` message `"Unable to find a viable program address
nonce"` only when every nonce in [1, 255] is rejected. -/
theorem C7_find_program_address_spec (isOnCurve : Address → Bool)
    (seeds : List (List Byte)) (programId : Address) :
    (∀ a nonce,
      find_program_address isOnCurve seeds programId
          = Except.ok (a, nonce) →
        isOnCurve a = false ∧ 1 ≤ nonce ∧ nonce ≤ 255 ∧
        create_program_address isOnCurve (seeds ++ [[nonce]]) programId
          = Except.ok (some a) ∧
        (∀ m, nonce < m → m ≤ 255 →
          create_program_address isOnCurve (seeds ++ [[m]]) programId
            = Except.ok none)) ∧
    (find_program_address isOnCurve seeds programId
        = Except.error "Unable to find a viable program address nonce" →
      ∀ m, 1 ≤ m → m ≤ 255 →
        create_program_address isOnCurve (seeds ++ [[m]]) programId
          = Except.ok none) := by
  constructor
  · intro a nonce h
    obtain ⟨h1, h2, h3, h4⟩ :=
      findNonceLoop_ok_spec isOnCurve seeds programId 255 a nonce h
    exact ⟨(create_ok_some isOnCurve (seeds ++ [[nonce]]) programId a h3).2,
      h1, h2, h3, h4⟩
  · exact fun h => findNonceLoop_err_spec isOnCurve seeds programId 255 h

/-- Witness for C7: with an always-off-curve test the very first nonce,
255, is accepted. -/
theorem C7_find_program_address_spec_witness :
    (fun (_ : Address) => false)
        (sha256 ([1, 255] ++ List.replicate 32 0 ++ pdaMarker)) = false ∧
    (1 : Nat) ≤ 255 :=
  let h := (C7_find_program_address_spec (fun _ => false) [[1]]
    (List.replicate 32 0)).1
    (sha256 ([1, 255] ++ List.replicate 32 0 ++ pdaMarker)) 255 rfl
  ⟨h.1, h.2.1⟩

/-! ## Account-meta collection lemmas (claims C1, C4, C5) -/

theorem mem_includeAccountMeta (metas : List AccountMeta) (a x : AccountMeta)
    (h : x ∈ includeAccountMeta metas a) : x ∈ metas ∨ x = a := by
  unfold includeAccountMeta at h
  split at h
  · exact Or.inl h
  · rcases List.mem_append.mp h with h1 | h1
    · exact Or.inl h1
    · exact Or.inr (List.mem_singleton.mp h1)

theorem includeAccountMeta_preserve (metas : List AccountMeta)
    (a x : AccountMeta) (h : x ∈ metas) : x ∈ includeAccountMeta metas a := by
  unfold includeAccountMeta
  split
  · exact h
  · exact List.mem_append_left _ h

theorem includeAccountMeta_pubkey_mem (metas : List AccountMeta)
    (a : AccountMeta) :
    a.pubkey ∈ (includeAccountMeta metas a).map (fun m => m.pubkey) := by
  by_cases hany : (metas.any (fun m => m.pubkey = a.pubkey)) = true
  · simp only [includeAccountMeta, hany, if_true]
    simp only [List.any_eq_true, decide_eq_true_eq] at hany
    obtain ⟨m, hm, he⟩ := hany
    exact List.mem_map.mpr ⟨m, hm, he⟩
  · simp [includeAccountMeta, hany]

theorem includeAccountMeta_pubkey_mono (metas : List AccountMeta)
    (a : AccountMeta) (q : Address)
    (h : q ∈ metas.map (fun m => m.pubkey)) :
    q ∈ (includeAccountMeta metas a).map (fun m => m.pubkey) := by
  obtain ⟨m, hm, he⟩ := List.mem_map.mp h
  exact List.mem_map.mpr ⟨m, includeAccountMeta_preserve metas a m hm, he⟩

theorem includeAccountMeta_pubkey_nodup (metas : List AccountMeta)
    (a : AccountMeta) (h : (metas.map (fun m => m.pubkey)).Nodup) :
    ((includeAccountMeta metas a).map (fun m => m.pubkey)).Nodup := by
  by_cases hany : (metas.any (fun m => m.pubkey = a.pubkey)) = true
  · simpa [includeAccountMeta, hany] using h
  · have hnot : a.pubkey ∉ metas.map (fun m => m.pubkey) := by
      intro hc
      obtain ⟨m, hm, he⟩ := List.mem_map.mp hc
      exact hany (List.any_eq_true.mpr ⟨m, hm, by simp [he]⟩)
    simp only [includeAccountMeta, hany, Bool.false_eq_true, if_false,
      List.map_append, List.map_cons, List.map_nil]
    simp [List.nodup_append, h, hnot]

theorem foldl_include_preserve (accs : List AccountMeta) :
    ∀ (metas : List AccountMeta) (x : AccountMeta), x ∈ metas →
      x ∈ accs.foldl includeAccountMeta metas := by
  induction accs with
  | nil => exact fun _ _ h => h
  | cons a rest ih =>
    exact fun metas x h => ih _ x (includeAccountMeta_preserve metas a x h)

theorem foldl_include_cases (accs : List AccountMeta) :
    ∀ (metas : List AccountMeta) (x : AccountMeta),
      x ∈ accs.foldl includeAccountMeta metas → x ∈ metas ∨ x ∈ accs := by
  induction accs with
  | nil => exact fun _ _ h => Or.inl h
  | cons a rest ih =>
    intro metas x h
    rcases ih (includeAccountMeta metas a) x h with h1 | h1
    · rcases mem_includeAccountMeta metas a x h1 with h2 | h2
      · exact Or.inl h2
      · exact Or.inr (h2 ▸ List.mem_cons_self a rest)
    · exact Or.inr (List.mem_cons_of_mem a h1)

theorem foldl_include_pubkey_mono (accs : List AccountMeta) :
    ∀ (metas : List AccountMeta) (q : Address),
      q ∈ metas.map (fun m => m.pubkey) →
      q ∈ (accs.foldl includeAccountMeta metas).map (fun m => m.pubkey) := by
  induction accs with
  | nil => exact fun _ _ h => h
  | cons a rest ih =>
    exact fun metas q h => ih _ q (includeAccountMeta_pubkey_mono metas a q h)

theorem foldl_include_pubkey_covers (accs : List AccountMeta) :
    ∀ (metas : List AccountMeta) (ac : AccountMeta), ac ∈ accs →
      ac.pubkey ∈ (accs.foldl includeAccountMeta metas).map (fun m => m.pubkey) := by
  induction accs with
  | nil => intro _ _ h; exact absurd h (List.not_mem_nil _)
  | cons a rest ih =>
    intro metas ac h
    rcases List.mem_cons.mp h with h1 | h1
    · subst h1
      exact foldl_include_pubkey_mono rest _ _
        (includeAccountMeta_pubkey_mem metas ac)
    · exact ih _ ac h1

theorem foldl_include_pubkey_nodup (accs : List AccountMeta) :
    ∀ (metas : List AccountMeta), (metas.map (fun m => m.pubkey)).Nodup →
      ((accs.foldl includeAccountMeta metas).map (fun m => m.pubkey)).Nodup := by
  induction accs with
  | nil => exact fun _ h => h
  | cons a rest ih =>
    exact fun metas h => ih _ (includeAccountMeta_pubkey_nodup metas a h)

theorem foldl_collect_preserve (instrs : List Instruction) :
    ∀ (metas : List AccountMeta) (x : AccountMeta), x ∈ metas →
      x ∈ instrs.foldl collectInstructionMetas metas := by
  induction instrs with
  | nil => exact fun _ _ h => h
  | cons i rest ih =>
    exact fun metas x h => ih _ x (foldl_include_preserve i.accounts metas x h)

theorem foldl_collect_cases (instrs : List Instruction) :
    ∀ (metas : List AccountMeta) (x : AccountMeta),
      x ∈ instrs.foldl collectInstructionMetas metas →
      x ∈ metas ∨ ∃ i ∈ instrs, x ∈ i.accounts := by
  induction instrs with
  | nil => exact fun _ _ h => Or.inl h
  | cons i rest ih =>
    intro metas x h
    rcases ih _ x h with h1 | h1
    · rcases foldl_include_cases i.accounts metas x h1 with h2 | h2
      · exact Or.inl h2
      · exact Or.inr ⟨i, List.mem_cons_self i rest, h2⟩
    · obtain ⟨i2, hi2, hx⟩ := h1
      exact Or.inr ⟨i2, List.mem_cons_of_mem i hi2, hx⟩

theorem foldl_collect_pubkey_mono (instrs : List Instruction) :
    ∀ (metas : List AccountMeta) (q : Address),
      q ∈ metas.map (fun m => m.pubkey) →
      q ∈ (instrs.foldl collectInstructionMetas metas).map (fun m => m.pubkey) := by
  induction instrs with
  | nil => exact fun _ _ h => h
  | cons i rest ih =>
    exact fun metas q h => ih _ q (foldl_include_pubkey_mono i.accounts metas q h)

theorem foldl_collect_pubkey_covers (instrs : List Instruction) :
    ∀ (metas : List AccountMeta) (i : Instruction) (ac : AccountMeta),
      i ∈ instrs → ac ∈ i.accounts →
      ac.pubkey
        ∈ (instrs.foldl collectInstructionMetas metas).map (fun m => m.pubkey) := by
  induction instrs with
  | nil => intro _ _ _ h; exact absurd h (List.not_mem_nil _)
  | cons i0 rest ih =>
    intro metas i ac hi hac
    rcases List.mem_cons.mp hi with h1 | h1
    · subst h1
      exact foldl_collect_pubkey_mono rest _ _
        (foldl_include_pubkey_covers i.accounts metas ac hac)
    · exact ih _ i ac h1 hac

theorem foldl_collect_pubkey_nodup (instrs : List Instruction) :
    ∀ (metas : List AccountMeta), (metas.map (fun m => m.pubkey)).Nodup →
      ((instrs.foldl collectInstructionMetas metas).map (fun m => m.pubkey)).Nodup := by
  induction instrs with
  | nil => exact fun _ h => h
  | cons i rest ih =>
    exact fun metas h => ih _ (foldl_include_pubkey_nodup i.accounts metas h)

theorem collectAccountMetas_cases (instrs : List Instruction) (x : AccountMeta)
    (h : x ∈ collectAccountMetas instrs) : ∃ i ∈ instrs, x ∈ i.accounts := by
  rcases foldl_collect_cases instrs [] x h with h1 | h1
  · exact absurd h1 (List.not_mem_nil _)
  · exact h1

theorem collectAccountMetas_pubkey_covers (instrs : List Instruction)
    (i : Instruction) (ac : AccountMeta) (hi : i ∈ instrs)
    (hac : ac ∈ i.accounts) :
    ac.pubkey ∈ (collectAccountMetas instrs).map (fun m => m.pubkey) :=
  foldl_collect_pubkey_covers instrs [] i ac hi hac

theorem collectAccountMetas_pubkey_nodup (instrs : List Instruction) :
    ((collectAccountMetas instrs).map (fun m => m.pubkey)).Nodup :=
  foldl_collect_pubkey_nodup instrs [] (by simp)

/-! ## Program-meta append lemmas -/

theorem foldl_appendProgram_preserve (instrs : List Instruction) :
    ∀ (st : List Address × List AccountMeta) (x : AccountMeta), x ∈ st.2 →
      x ∈ (instrs.foldl appendProgramStep st).2 := by
  induction instrs with
  | nil => exact fun _ _ h => h
  | cons i rest ih =>
    intro st x h
    apply ih
    unfold appendProgramStep
    split
    · exact h
    · exact List.mem_append_left _ h

theorem foldl_appendProgram_cases (instrs : List Instruction) :
    ∀ (st : List Address × List AccountMeta) (x : AccountMeta),
      x ∈ (instrs.foldl appendProgramStep st).2 →
      x ∈ st.2 ∨ ∃ i ∈ instrs, x = ⟨i.programId, false, false⟩ := by
  induction instrs with
  | nil => exact fun _ _ h => Or.inl h
  | cons i0 rest ih =>
    intro st x h
    rcases ih (appendProgramStep st i0) x h with h1 | h1
    · unfold appendProgramStep at h1
      split at h1
      · exact Or.inl h1
      · rcases List.mem_append.mp h1 with h2 | h2
        · exact Or.inl h2
        · exact Or.inr ⟨i0, List.mem_cons_self i0 rest,
            List.mem_singleton.mp h2⟩
    · obtain ⟨i2, hi2, hx⟩ := h1
      exact Or.inr ⟨i2, List.mem_cons_of_mem i0 hi2, hx⟩

theorem foldl_appendProgram_pubkey_mono (instrs : List Instruction)
    (st : List Address × List AccountMeta) (q : Address)
    (h : q ∈ st.2.map (fun m => m.pubkey)) :
    q ∈ (instrs.foldl appendProgramStep st).2.map (fun m => m.pubkey) := by
  obtain ⟨m, hm, he⟩ := List.mem_map.mp h
  exact List.mem_map.mpr ⟨m, foldl_appendProgram_preserve instrs st m hm, he⟩

theorem foldl_appendProgram_programId_mem (instrs : List Instruction) :
    ∀ (st : List Address × List AccountMeta),
      (∀ q ∈ st.1, q ∈ st.2.map (fun m => m.pubkey)) →
      ∀ i ∈ instrs,
        i.programId
          ∈ (instrs.foldl appendProgramStep st).2.map (fun m => m.pubkey) := by
  induction instrs with
  | nil => intro _ _ i hi; exact absurd hi (List.not_mem_nil _)
  | cons i0 rest ih =>
    intro st hinv i hi
    rw [List.foldl_cons]
    by_cases hany : (st.1.any (fun p => p = i0.programId)) = true
    · have hstep : appendProgramStep st i0 = st := by
        simp [appendProgramStep, hany]
      rw [hstep]
      rcases List.mem_cons.mp hi with h1 | h1
      · subst h1
        have hmem : i.programId ∈ st.1 := by
          simp only [List.any_eq_true, decide_eq_true_eq] at hany
          obtain ⟨p, hp, he⟩ := hany
          exact he ▸ hp
        exact foldl_appendProgram_pubkey_mono rest st _ (hinv _ hmem)
      · exact ih st hinv i h1
    · have hstep : appendProgramStep st i0
          = (st.1 ++ [i0.programId], st.2 ++ [⟨i0.programId, false, false⟩]) := by
        simp [appendProgramStep, hany]
      rw [hstep]
      have hinv' : ∀ q ∈ st.1 ++ [i0.programId],
          q ∈ (st.2 ++ [(⟨i0.programId, false, false⟩ : AccountMeta)]).map
            (fun m => m.pubkey) := by
        intro q hq
        rcases List.mem_append.mp hq with h2 | h2
        · obtain ⟨m, hm, he⟩ := List.mem_map.mp (hinv q h2)
          exact List.mem_map.mpr ⟨m, List.mem_append_left _ hm, he⟩
        · have hq' : q = i0.programId := List.mem_singleton.mp h2
          exact List.mem_map.mpr
            ⟨⟨i0.programId, false, false⟩, List.mem_append_right _ (by simp),
             hq'.symm⟩
      rcases List.mem_cons.mp hi with h1 | h1
      · subst h1
        apply foldl_appendProgram_pubkey_mono rest _ i.programId
        exact List.mem_map.mpr
          ⟨⟨i.programId, false, false⟩, List.mem_append_right _ (by simp), rfl⟩
      · exact ih _ hinv' i h1

theorem foldl_appendProgram_pubkey_nodup (base : List Address)
    (instrs : List Instruction) :
    ∀ (st : List Address × List AccountMeta),
      (∀ i ∈ instrs, i.programId ∉ base) →
      (st.2.map (fun m => m.pubkey)).Nodup →
      (∀ q ∈ st.2.map (fun m => m.pubkey), q ∈ base ∨ q ∈ st.1) →
      ((instrs.foldl appendProgramStep st).2.map (fun m => m.pubkey)).Nodup := by
  induction instrs with
  | nil => exact fun _ _ h _ => h
  | cons i0 rest ih =>
    intro st hdisj hnd hq
    rw [List.foldl_cons]
    by_cases hany : (st.1.any (fun p => p = i0.programId)) = true
    · have hstep : appendProgramStep st i0 = st := by
        simp [appendProgramStep, hany]
      rw [hstep]
      exact ih st (fun i hi => hdisj i (List.mem_cons_of_mem i0 hi)) hnd hq
    · have hstep : appendProgramStep st i0
          = (st.1 ++ [i0.programId], st.2 ++ [⟨i0.programId, false, false⟩]) := by
        simp [appendProgramStep, hany]
      rw [hstep]
      have hnotmem : i0.programId ∉ st.2.map (fun m => m.pubkey) := by
        intro hc
        rcases hq _ hc with h2 | h2
        · exact hdisj i0 (List.mem_cons_self i0 rest) h2
        · exact hany (List.any_eq_true.mpr ⟨i0.programId, h2, by simp⟩)
      apply ih _ (fun i hi => hdisj i (List.mem_cons_of_mem i0 hi))
      · simp only [List.map_append, List.map_cons, List.map_nil]
        simp [List.nodup_append, hnd, hnotmem]
      · intro q hqmem
        simp only [List.map_append, List.map_cons, List.map_nil] at hqmem
        rcases List.mem_append.mp hqmem with h2 | h2
        · rcases hq q h2 with h3 | h3
          · exact Or.inl h3
          · exact Or.inr (List.mem_append_left _ h3)
        · exact Or.inr (List.mem_append_right _ h2)

theorem appendProgramMetas_cases (instrs : List Instruction)
    (metas : List AccountMeta) (x : AccountMeta)
    (h : x ∈ appendProgramMetas instrs metas) :
    x ∈ metas ∨ ∃ i ∈ instrs, x = ⟨i.programId, false, false⟩ :=
  foldl_appendProgram_cases instrs ([], metas) x h

/-! ## Sort and fee-payer lemmas -/

theorem insertMeta_perm (x : AccountMeta) (l : List AccountMeta) :
    (insertMeta x l).Perm (x :: l) := by
  induction l with
  | nil => exact List.Perm.refl _
  | cons y ys ih =>
    unfold insertMeta
    by_cases h : metaLt y x = true
    · simp only [h, if_true]
      exact (ih.cons y).trans (List.Perm.swap x y ys)
    · simp only [h, Bool.false_eq_true, if_false]
      exact List.Perm.refl _

theorem sortMetas_perm (l : List AccountMeta) : (sortMetas l).Perm l := by
  induction l with
  | nil => exact List.Perm.refl _
  | cons x xs ih =>
    exact (insertMeta_perm x (sortMetas xs)).trans (ih.cons x)

theorem promoteFeePayer_eq (fp : Address) (metas : List AccountMeta) :
    promoteFeePayer fp metas
      = ⟨fp, true, true⟩ :: metas.eraseP (fun m => m.pubkey = fp) := by
  unfold promoteFeePayer
  by_cases hany : (metas.any (fun m => m.pubkey = fp)) = true
  · simp [hany]
  · have hnone : ∀ a ∈ metas, ¬(decide (a.pubkey = fp)) = true := by
      intro a ha hc
      exact hany (List.any_eq_true.mpr ⟨a, ha, hc⟩)
    simp [hany, List.eraseP_of_forall_not hnone]

theorem eraseP_map_pubkey (metas : List AccountMeta) (fp : Address) :
    (metas.eraseP (fun m => m.pubkey = fp)).map (fun m => m.pubkey)
      = (metas.map (fun m => m.pubkey)).eraseP (fun q => q = fp) := by
  induction metas with
  | nil => rfl
  | cons m rest ih =>
    by_cases hp : m.pubkey = fp
    · simp [List.eraseP_cons, hp]
    · simp [List.eraseP_cons, hp, ih]

theorem not_mem_eraseP_self (fp : Address) (l : List Address) (h : l.Nodup) :
    fp ∉ l.eraseP (fun q => q = fp) := by
  induction l with
  | nil => simp
  | cons a rest ih =>
    rw [List.nodup_cons] at h
    by_cases ha : a = fp
    · subst ha
      simpa [List.eraseP_cons] using h.1
    · intro hc
      simp only [List.eraseP_cons, ha, decide_False, cond_false] at hc
      rcases List.mem_cons.mp hc with h1 | h1
      · exact ha h1.symm
      · exact ih h.2 h1

theorem nodup_cons_eraseP (l : List Address) (fp : Address) (h : l.Nodup) :
    (fp :: l.eraseP (fun q => q = fp)).Nodup :=
  List.nodup_cons.mpr ⟨not_mem_eraseP_self fp l h,
    List.Nodup.sublist (List.eraseP_sublist l) h⟩

theorem promoteFeePayer_pubkey_nodup (fp : Address) (metas : List AccountMeta)
    (h : (metas.map (fun m => m.pubkey)).Nodup) :
    ((promoteFeePayer fp metas).map (fun m => m.pubkey)).Nodup := by
  rw [promoteFeePayer_eq]
  simp only [List.map_cons]
  rw [eraseP_map_pubkey]
  exact nodup_cons_eraseP _ fp h

theorem promoteFeePayer_pubkey_mem (fp : Address) (metas : List AccountMeta)
    (q : Address) (h : q ∈ metas.map (fun m => m.pubkey)) :
    q ∈ (promoteFeePayer fp metas).map (fun m => m.pubkey) := by
  rw [promoteFeePayer_eq]
  simp only [List.map_cons]
  by_cases hq : q = fp
  · exact hq ▸ List.mem_cons_self _ _
  · apply List.mem_cons_of_mem
    rw [eraseP_map_pubkey]
    exact (List.mem_eraseP_of_neg (by simpa using hq)).mpr h

/-! ## Partition/count and compile-shape lemmas -/

theorem splitStep_signedKeys (st : SplitState) (m : AccountMeta) :
    (splitStep st m).signedKeys
      = if m.isSigner then st.signedKeys ++ [m.pubkey] else st.signedKeys := by
  unfold splitStep
  split <;> rfl

theorem splitStep_unsignedKeys (st : SplitState) (m : AccountMeta) :
    (splitStep st m).unsignedKeys
      = if m.isSigner then st.unsignedKeys else st.unsignedKeys ++ [m.pubkey] := by
  unfold splitStep
  split <;> rfl

theorem splitStep_nrs (st : SplitState) (m : AccountMeta) :
    (splitStep st m).numRequiredSignatures
      = if m.isSigner then (st.numRequiredSignatures + 1) % 256
        else st.numRequiredSignatures := by
  unfold splitStep
  split <;> rfl

theorem splitAndCount_foldl (metas : List AccountMeta) :
    ∀ (st : SplitState),
      (metas.foldl splitStep st).signedKeys
        = st.signedKeys
            ++ (metas.filter (fun m => m.isSigner)).map (fun m => m.pubkey) ∧
      (metas.foldl splitStep st).unsignedKeys
        = st.unsignedKeys
            ++ (metas.filter (fun m => !m.isSigner)).map (fun m => m.pubkey) ∧
      (st.numRequiredSignatures < 256 →
        (metas.foldl splitStep st).numRequiredSignatures
          = (st.numRequiredSignatures
              + metas.countP (fun m => m.isSigner)) % 256) := by
  induction metas with
  | nil =>
    intro st
    exact ⟨by simp, by simp, fun h => by simp [Nat.mod_eq_of_lt h]⟩
  | cons m rest ih =>
    intro st
    obtain ⟨ih1, ih2, ih3⟩ := ih (splitStep st m)
    by_cases hs : m.isSigner = true
    · have hstep : (splitStep st m).numRequiredSignatures
          = (st.numRequiredSignatures + 1) % 256 := by
        rw [splitStep_nrs]; simp [hs]
      refine ⟨?_, ?_, ?_⟩
      · rw [List.foldl_cons, ih1, splitStep_signedKeys]
        simp [hs, List.filter_cons]
      · rw [List.foldl_cons, ih2, splitStep_unsignedKeys]
        simp [hs, List.filter_cons]
      · intro hlt
        have hlt' : (splitStep st m).numRequiredSignatures < 256 := by
          rw [hstep]; exact Nat.mod_lt _ (by omega)
        rw [List.foldl_cons, ih3 hlt', hstep, Nat.mod_add_mod]
        have hc : (m :: rest).countP (fun x => x.isSigner)
            = rest.countP (fun x => x.isSigner) + 1 := by
          simp [List.countP_cons, hs]
        rw [hc]
        congr 1
        omega
    · have hstep : (splitStep st m).numRequiredSignatures
          = st.numRequiredSignatures := by
        rw [splitStep_nrs]; simp [hs]
      refine ⟨?_, ?_, ?_⟩
      · rw [List.foldl_cons, ih1, splitStep_signedKeys]
        simp [hs, List.filter_cons]
      · rw [List.foldl_cons, ih2, splitStep_unsignedKeys]
        simp [hs, List.filter_cons]
      · intro hlt
        rw [List.foldl_cons, ih3 (by rw [hstep]; exact hlt), hstep]
        have hc : (m :: rest).countP (fun x => x.isSigner)
            = rest.countP (fun x => x.isSigner) := by
          simp [List.countP_cons, hs]
        rw [hc]

theorem splitAndCount_signedKeys (metas : List AccountMeta) :
    (splitAndCount metas).signedKeys
      = (metas.filter (fun m => m.isSigner)).map (fun m => m.pubkey) := by
  simpa using (splitAndCount_foldl metas ⟨0, 0, 0, [], []⟩).1

theorem splitAndCount_unsignedKeys (metas : List AccountMeta) :
    (splitAndCount metas).unsignedKeys
      = (metas.filter (fun m => !m.isSigner)).map (fun m => m.pubkey) := by
  simpa using (splitAndCount_foldl metas ⟨0, 0, 0, [], []⟩).2.1

theorem splitAndCount_nrs (metas : List AccountMeta) :
    (splitAndCount metas).numRequiredSignatures
      = metas.countP (fun m => m.isSigner) % 256 := by
  simpa using (splitAndCount_foldl metas ⟨0, 0, 0, [], []⟩).2.2 (by simp)

theorem finalAccountKeys_perm (msg : TxMessage) (fp : Address) :
    (finalAccountKeys msg fp).Perm
      ((promotedMetas msg fp).map (fun m => m.pubkey)) := by
  unfold finalAccountKeys
  rw [splitAndCount_signedKeys, splitAndCount_unsignedKeys, ← List.map_append]
  exact (List.filter_append_perm _ _).map _

theorem finalAccountKeys_mem (msg : TxMessage) (fp : Address) (q : Address)
    (h : q ∈ (promotedMetas msg fp).map (fun m => m.pubkey)) :
    q ∈ finalAccountKeys msg fp :=
  (finalAccountKeys_perm msg fp).mem_iff.mpr h

theorem finalAccountKeys_head (msg : TxMessage) (fp : Address) :
    (finalAccountKeys msg fp).head? = some fp := by
  unfold finalAccountKeys
  rw [splitAndCount_signedKeys]
  unfold promotedMetas
  rw [promoteFeePayer_eq]
  simp [List.filter_cons]

theorem referenced_account_in_finalKeys (msg : TxMessage) (fp : Address)
    (i : Instruction) (ac : AccountMeta) (hi : i ∈ msg.instructions)
    (hac : ac ∈ i.accounts) : ac.pubkey ∈ finalAccountKeys msg fp := by
  apply finalAccountKeys_mem
  unfold promotedMetas
  apply promoteFeePayer_pubkey_mem
  rw [((sortMetas_perm _).map (fun m => m.pubkey)).mem_iff]
  unfold appendProgramMetas
  exact foldl_appendProgram_pubkey_mono msg.instructions
    ([], collectAccountMetas msg.instructions) _
    (collectAccountMetas_pubkey_covers msg.instructions i ac hi hac)

theorem referenced_program_in_finalKeys (msg : TxMessage) (fp : Address)
    (i : Instruction) (hi : i ∈ msg.instructions) :
    i.programId ∈ finalAccountKeys msg fp := by
  apply finalAccountKeys_mem
  unfold promotedMetas
  apply promoteFeePayer_pubkey_mem
  rw [((sortMetas_perm _).map (fun m => m.pubkey)).mem_iff]
  unfold appendProgramMetas
  exact foldl_appendProgram_programId_mem msg.instructions
    ([], collectAccountMetas msg.instructions) (by simp) i hi

theorem compile_eq (msg : TxMessage) (s0 : Keypair) (rest : List Keypair)
    (hne : msg.instructions.isEmpty = false) :
    compile msg (s0 :: rest)
    = (compileInstructions (finalAccountKeys msg s0.publicKey)
        msg.instructions).map
        (fun cis =>
          { header :=
              ⟨(splitAndCount (promotedMetas msg s0.publicKey)).numRequiredSignatures,
               (splitAndCount (promotedMetas msg s0.publicKey)).numReadonlySignedAccounts,
               (splitAndCount (promotedMetas msg s0.publicKey)).numReadonlyUnsignedAccounts⟩
            accountKeys := finalAccountKeys msg s0.publicKey
            recentBlockhash := msg.recentBlockhash
            instructions := cis }) := by
  unfold compile finalAccountKeys promotedMetas
  simp only [hne, Bool.false_eq_true, if_false]

theorem compile_nil_signers (msg : TxMessage) (m : CompiledMessage) :
    compile msg [] ≠ Except.ok m := by
  intro h
  unfold compile at h
  by_cases hne : msg.instructions.isEmpty <;> simp [hne] at h

theorem compile_ok_not_empty (msg : TxMessage) (signers : List Keypair)
    (m : CompiledMessage) (h : compile msg signers = Except.ok m) :
    msg.instructions.isEmpty = false := by
  cases hie : msg.instructions.isEmpty
  · rfl
  · unfold compile at h
    rw [hie] at h
    simp at h

/-! ## Instruction-resolution lemmas -/

theorem findIdx_eq_length_iff_not_mem (keys : List Address) (q : Address) :
    keys.findIdx (fun k => k = q) = keys.length ↔ q ∉ keys := by
  rw [List.findIdx_eq_length]
  constructor
  · intro hall hc
    have := hall _ hc
    simp at this
  · intro hnc k hk
    simp only [decide_eq_false_iff_not]
    intro he
    exact hnc (he ▸ hk)

theorem compileAccountIndexes_ok_bounds (keys : List Address) :
    ∀ (accs : List AccountMeta) (idxs : List Nat),
      compileAccountIndexes keys accs = Except.ok idxs →
      ∀ idx ∈ idxs, idx < keys.length := by
  intro accs
  induction accs with
  | nil =>
    intro idxs h idx hidx
    unfold compileAccountIndexes at h
    simp only [Except.ok.injEq] at h
    subst h
    exact absurd hidx (List.not_mem_nil _)
  | cons a rest ih =>
    intro idxs h idx hidx
    unfold compileAccountIndexes at h
    by_cases hf : keys.findIdx (fun k => k = a.pubkey) = keys.length
    · simp [hf] at h
    · simp only [hf, if_false] at h
      cases hr : compileAccountIndexes keys rest with
      | error e => rw [hr] at h; simp [Except.map] at h
      | ok is =>
        rw [hr] at h
        simp only [Except.map, Except.ok.injEq] at h
        subst h
        rcases List.mem_cons.mp hidx with h1 | h1
        · subst h1
          have hle : keys.findIdx (fun k => k = a.pubkey) ≤ keys.length :=
            List.findIdx_le_length _
          have hlt : keys.findIdx (fun k => k = a.pubkey) < keys.length := by
            omega
          exact Nat.lt_of_le_of_lt (Nat.mod_le _ _) hlt
        · exact ih is hr idx h1

theorem compileAccountIndexes_error_iff (keys : List Address) :
    ∀ (accs : List AccountMeta) (e : String),
      compileAccountIndexes keys accs = Except.error e ↔
        (e = "Unknown account" ∧ ∃ ac ∈ accs, ac.pubkey ∉ keys) := by
  intro accs
  induction accs with
  | nil =>
    intro e
    constructor
    · intro h
      unfold compileAccountIndexes at h
      simp at h
    · intro ⟨_, ac, hac, _⟩
      exact absurd hac (List.not_mem_nil _)
  | cons a rest ih =>
    intro e
    constructor
    · intro h
      unfold compileAccountIndexes at h
      by_cases hf : keys.findIdx (fun k => k = a.pubkey) = keys.length
      · simp only [hf, if_true, Except.error.injEq] at h
        exact ⟨h.symm, a, List.mem_cons_self a rest,
          (findIdx_eq_length_iff_not_mem keys a.pubkey).mp hf⟩
      · simp only [hf, if_false] at h
        cases hr : compileAccountIndexes keys rest with
        | error e2 =>
          rw [hr] at h
          simp only [Except.map, Except.error.injEq] at h
          obtain ⟨he2, ac, hac, hnk⟩ := (ih e2).mp hr
          exact ⟨h ▸ he2, ac, List.mem_cons_of_mem a hac, hnk⟩
        | ok is =>
          rw [hr] at h
          simp [Except.map] at h
    · intro ⟨he, ac, hac, hnk⟩
      unfold compileAccountIndexes
      rcases List.mem_cons.mp hac with h1 | h1
      · subst h1
        have hf : keys.findIdx (fun k => k = ac.pubkey) = keys.length :=
          (findIdx_eq_length_iff_not_mem keys ac.pubkey).mpr hnk
        simp [hf, he]
      · by_cases hf : keys.findIdx (fun k => k = a.pubkey) = keys.length
        · have hnk' : a.pubkey ∉ keys :=
            (findIdx_eq_length_iff_not_mem keys a.pubkey).mp hf
          simp [hf, he]
        · have hrec : compileAccountIndexes keys rest
              = Except.error "Unknown account" :=
            (ih "Unknown account").mpr ⟨rfl, ac, h1, hnk⟩
          simp [hf, hrec, Except.map, he]

theorem compileOneInstruction_ok_bounds (keys : List Address)
    (instr : Instruction) (ci : CompiledInstruction)
    (h : compileOneInstruction keys instr = Except.ok ci)
    (hpid : instr.programId ∈ keys) :
    ci.programIdIndex < keys.length ∧ ∀ idx ∈ ci.accounts, idx < keys.length := by
  unfold compileOneInstruction at h
  cases hr : compileAccountIndexes keys instr.accounts with
  | error e => rw [hr] at h; simp [Except.map] at h
  | ok idxs =>
    rw [hr] at h
    simp only [Except.map, Except.ok.injEq] at h
    subst h
    constructor
    · have hlt : keys.findIdx (fun k => k = instr.programId) < keys.length :=
        List.findIdx_lt_length_of_exists ⟨instr.programId, hpid, by simp⟩
      exact Nat.lt_of_le_of_lt (Nat.mod_le _ _) hlt
    · exact compileAccountIndexes_ok_bounds keys instr.accounts idxs hr

theorem compileOneInstruction_error_iff (keys : List Address)
    (instr : Instruction) (e : String) :
    compileOneInstruction keys instr = Except.error e ↔
      compileAccountIndexes keys instr.accounts = Except.error e := by
  unfold compileOneInstruction
  cases hr : compileAccountIndexes keys instr.accounts with
  | error e2 => simp [Except.map]
  | ok idxs => simp [Except.map]

theorem compileInstructions_ok_bounds (keys : List Address) :
    ∀ (instrs : List Instruction) (cis : List CompiledInstruction),
      compileInstructions keys instrs = Except.ok cis →
      (∀ i ∈ instrs, i.programId ∈ keys) →
      ∀ ci ∈ cis,
        ci.programIdIndex < keys.length
          ∧ ∀ idx ∈ ci.accounts, idx < keys.length := by
  intro instrs
  induction instrs with
  | nil =>
    intro cis h _ ci hci
    unfold compileInstructions at h
    simp only [Except.ok.injEq] at h
    subst h
    exact absurd hci (List.not_mem_nil _)
  | cons i rest ih =>
    intro cis h hpid ci hci
    unfold compileInstructions at h
    cases h1 : compileOneInstruction keys i with
    | error e => rw [h1] at h; simp at h
    | ok ci0 =>
      rw [h1] at h
      cases h2 : compileInstructions keys rest with
      | error e => rw [h2] at h; simp at h
      | ok cis0 =>
        rw [h2] at h
        simp only [Except.ok.injEq] at h
        subst h
        rcases List.mem_cons.mp hci with hc | hc
        · subst hc
          exact compileOneInstruction_ok_bounds keys i ci h1
            (hpid i (List.mem_cons_self i rest))
        · exact ih cis0 h2 (fun j hj => hpid j (List.mem_cons_of_mem i hj)) ci hc

theorem compileInstructions_error_iff (keys : List Address) :
    ∀ (instrs : List Instruction) (e : String),
      compileInstructions keys instrs = Except.error e ↔
        (e = "Unknown account"
          ∧ ∃ i ∈ instrs, ∃ ac ∈ i.accounts, ac.pubkey ∉ keys) := by
  intro instrs
  induction instrs with
  | nil =>
    intro e
    constructor
    · intro h
      unfold compileInstructions at h
      simp at h
    · intro ⟨_, i, hi, _⟩
      exact absurd hi (List.not_mem_nil _)
  | cons i rest ih =>
    intro e
    constructor
    · intro h
      unfold compileInstructions at h
      cases h1 : compileOneInstruction keys i with
      | error e2 =>
        rw [h1] at h
        simp only [Except.error.injEq] at h
        have h1' := (compileOneInstruction_error_iff keys i e2).mp h1
        obtain ⟨he2, ac, hac, hnk⟩ :=
          (compileAccountIndexes_error_iff keys i.accounts e2).mp h1'
        exact ⟨h ▸ he2, i, List.mem_cons_self i rest, ac, hac, hnk⟩
      | ok ci0 =>
        rw [h1] at h
        cases h2 : compileInstructions keys rest with
        | error e2 =>
          rw [h2] at h
          simp only [Except.error.injEq] at h
          obtain ⟨he2, j, hj, ac, hac, hnk⟩ := (ih e2).mp h2
          exact ⟨h ▸ he2, j, List.mem_cons_of_mem i hj, ac, hac, hnk⟩
        | ok cis0 => rw [h2] at h; simp at h
    · intro ⟨he, j, hj, ac, hac, hnk⟩
      unfold compileInstructions
      rcases List.mem_cons.mp hj with h1 | h1
      · subst h1
        have herr : compileOneInstruction keys j = Except.error "Unknown account" :=
          (compileOneInstruction_error_iff keys j "Unknown account").mpr
            ((compileAccountIndexes_error_iff keys j.accounts
              "Unknown account").mpr ⟨rfl, ac, hac, hnk⟩)
        rw [herr, he]
      · cases h1' : compileOneInstruction keys i with
        | error e2 =>
          have h1'' := (compileOneInstruction_error_iff keys i e2).mp h1'
          obtain ⟨he2, _, _, _⟩ :=
            (compileAccountIndexes_error_iff keys i.accounts e2).mp h1''
          rw [he, he2]
        | ok ci0 =>
          have hrec : compileInstructions keys rest
              = Except.error "Unknown account" :=
            (ih "Unknown account").mpr ⟨rfl, j, h1, ac, hac, hnk⟩
          rw [hrec, he]

/-! ## Claims C1, C4, C5 -/

/-- C1 counterexample: a transaction whose single instruction references
its own program address as an account compiles successfully with that
address appearing twice in `accountKeys` — the program-append loop
deduplicates only against the other program ids, not against the
account-meta list. -/
theorem C1_duplicate_program_counterexample :
    compile cxMsgDupProgram [cxSigner]
      = Except.ok ⟨⟨1, 0, 2⟩, [cxFeePayer, cxProgram, cxProgram],
          List.replicate 32 0, [⟨[1], [7], 1⟩]⟩ ∧
    ¬ ([cxFeePayer, cxProgram, cxProgram] : List Address).Nodup ∧
    (∃ i ∈ cxMsgDupProgram.instructions, ∃ ac ∈ i.accounts,
      ac.pubkey = i.programId) :=
  ⟨rfl, by decide, by decide⟩

/-- C1 (amended): every entry the program-append loop adds is a
non-signer, non-writable meta for some instruction's program id, added
only when that id was not appended before; and provided no instruction's
program address also occurs as a referenced account, every Address
appears at most once in the compiled message's accountKeys list. -/
theorem C1_amended_nodup_accountKeys :
    (∀ (instrs : List Instruction) (metas : List AccountMeta)
        (x : AccountMeta),
      x ∈ appendProgramMetas instrs metas →
      x ∈ metas ∨ ∃ i ∈ instrs, x = ⟨i.programId, false, false⟩) ∧
    (∀ (msg : TxMessage) (signers : List Keypair) (m : CompiledMessage),
      (∀ i ∈ msg.instructions, ∀ i2 ∈ msg.instructions,
        ∀ ac ∈ i2.accounts, ac.pubkey ≠ i.programId) →
      compile msg signers = Except.ok m →
      m.accountKeys.Nodup) := by
  constructor
  · exact fun instrs metas x => appendProgramMetas_cases instrs metas x
  · intro msg signers m hdisj h
    cases signers with
    | nil => exact absurd h (compile_nil_signers msg m)
    | cons s0 rest =>
      have hne := compile_ok_not_empty msg (s0 :: rest) m h
      rw [compile_eq msg s0 rest hne] at h
      cases hci : compileInstructions (finalAccountKeys msg s0.publicKey)
          msg.instructions with
      | error e => rw [hci] at h; simp [Except.map] at h
      | ok cis =>
        rw [hci] at h
        simp only [Except.map, Except.ok.injEq] at h
        subst h
        show (finalAccountKeys msg s0.publicKey).Nodup
        rw [(finalAccountKeys_perm msg s0.publicKey).nodup_iff]
        unfold promotedMetas
        apply promoteFeePayer_pubkey_nodup
        rw [((sortMetas_perm _).map (fun x => x.pubkey)).nodup_iff]
        unfold appendProgramMetas
        apply foldl_appendProgram_pubkey_nodup
          ((collectAccountMetas msg.instructions).map (fun x => x.pubkey))
          msg.instructions ([], collectAccountMetas msg.instructions)
        · intro i hi hc
          obtain ⟨mm, hmm, he⟩ := List.mem_map.mp hc
          obtain ⟨i2, hi2, hmm2⟩ := collectAccountMetas_cases _ mm hmm
          exact hdisj i hi i2 hi2 mm hmm2 he
        · exact collectAccountMetas_pubkey_nodup msg.instructions
        · exact fun q hq => Or.inl hq

/-- Witness for C1 (amended): the concrete transfer-shaped transaction
compiles to an accountKeys list with no duplicates. -/
theorem C1_amended_nodup_accountKeys_witness : wCompiled.accountKeys.Nodup :=
  C1_amended_nodup_accountKeys.2 wMsgTx [cxSigner] wCompiled (by decide) rfl

set_option maxRecDepth 100000 in
set_option maxHeartbeats 4000000 in
/-- C4 counterexample: an instruction referencing 256 distinct signer
accounts compiles with `header.numRequiredSignatures = 0` — the
`uint8_t` counter wraps — while the number of signer AccountMetas after
fee-payer promotion is 256, so the claimed equality fails. -/
theorem C4_header_overflow_counterexample :
    (compile cxMsgOverflow [cxSignerZero]).toOption.map
        (fun m => m.header.numRequiredSignatures) = some 0 ∧
    (promotedMetas cxMsgOverflow cxSignerZero.publicKey).countP
        (fun x => x.isSigner) = 256 ∧
    (0 : Nat) ≠ 256 := by
  have hcount : (promotedMetas cxMsgOverflow cxSignerZero.publicKey).countP
      (fun x => x.isSigner) = 256 := by decide
  refine ⟨?_, hcount, by decide⟩
  have hc := compile_eq cxMsgOverflow cxSignerZero [] (by decide)
  cases hci : compileInstructions
      (finalAccountKeys cxMsgOverflow cxSignerZero.publicKey)
      cxMsgOverflow.instructions with
  | error e =>
    obtain ⟨_, i, hi, ac, hac, hnk⟩ :=
      (compileInstructions_error_iff _ cxMsgOverflow.instructions e).mp hci
    exact absurd
      (referenced_account_in_finalKeys cxMsgOverflow cxSignerZero.publicKey
        i ac hi hac) hnk
  | ok cis =>
    rw [hci] at hc
    rw [hc]
    show some ((splitAndCount
        (promotedMetas cxMsgOverflow cxSignerZero.publicKey)).numRequiredSignatures)
      = some 0
    rw [splitAndCount_nrs, hcount]

/-- C4 (amended): for every successful compile with signer list
`s0 :: rest`, `accountKeys[0]` is `s0`'s address; the fee payer is
removed from its sorted position when present (synthesized otherwise)
and re-inserted at position 0 with signer and writable forced true; and
`header.numRequiredSignatures` equals the number of signer AccountMetas
after fee-payer promotion reduced modulo 256 (the counter is a
`uint8_t`). -/
theorem C4_amended_fee_payer_spec (msg : TxMessage) (s0 : Keypair)
    (rest : List Keypair) (m : CompiledMessage)
    (h : compile msg (s0 :: rest) = Except.ok m) :
    m.accountKeys.head? = some s0.publicKey ∧
    m.header.numRequiredSignatures
      = (promotedMetas msg s0.publicKey).countP (fun x => x.isSigner) % 256 ∧
    promotedMetas msg s0.publicKey
      = ⟨s0.publicKey, true, true⟩
          :: (sortMetas (appendProgramMetas msg.instructions
               (collectAccountMetas msg.instructions))).eraseP
               (fun x => x.pubkey = s0.publicKey) := by
  have hne := compile_ok_not_empty msg (s0 :: rest) m h
  rw [compile_eq msg s0 rest hne] at h
  cases hci : compileInstructions (finalAccountKeys msg s0.publicKey)
      msg.instructions with
  | error e => rw [hci] at h; simp [Except.map] at h
  | ok cis =>
    rw [hci] at h
    simp only [Except.map, Except.ok.injEq] at h
    subst h
    refine ⟨finalAccountKeys_head msg s0.publicKey, ?_, ?_⟩
    · show (splitAndCount (promotedMetas msg s0.publicKey)).numRequiredSignatures = _
      rw [splitAndCount_nrs]
    · unfold promotedMetas
      exact promoteFeePayer_eq s0.publicKey _

/-- Witness for C4 (amended) at the concrete transfer-shaped
transaction. -/
theorem C4_amended_fee_payer_spec_witness :
    wCompiled.accountKeys.head? = some cxSigner.publicKey :=
  (C4_amended_fee_payer_spec wMsgTx cxSigner [] wCompiled rfl).1

/-- C5: in every successfully compiled message, each instruction's
program index and account indices are valid positions into
`accountKeys`; every referenced account address and program address is
in fact present in `accountKeys` (so the defensive absence check can
never fire); and the index-resolution loop fails with the
`"Unknown account"` ValidationError exactly when some referenced account
address is absent from the key list it resolves against. -/
theorem C5_compile_indices_valid :
    (∀ (msg : TxMessage) (signers : List Keypair) (m : CompiledMessage),
      compile msg signers = Except.ok m →
      (∀ ci ∈ m.instructions,
        ci.programIdIndex < m.accountKeys.length
          ∧ ∀ idx ∈ ci.accounts, idx < m.accountKeys.length) ∧
      (∀ i ∈ msg.instructions,
        i.programId ∈ m.accountKeys
          ∧ ∀ ac ∈ i.accounts, ac.pubkey ∈ m.accountKeys)) ∧
    (∀ (keys : List Address) (instrs : List Instruction),
      compileInstructions keys instrs = Except.error "Unknown account" ↔
        ∃ i ∈ instrs, ∃ ac ∈ i.accounts, ac.pubkey ∉ keys) := by
  constructor
  · intro msg signers m h
    cases signers with
    | nil => exact absurd h (compile_nil_signers msg m)
    | cons s0 rest =>
      have hne := compile_ok_not_empty msg (s0 :: rest) m h
      rw [compile_eq msg s0 rest hne] at h
      cases hci : compileInstructions (finalAccountKeys msg s0.publicKey)
          msg.instructions with
      | error e => rw [hci] at h; simp [Except.map] at h
      | ok cis =>
        rw [hci] at h
        simp only [Except.map, Except.ok.injEq] at h
        subst h
        constructor
        · intro ci hc
          exact compileInstructions_ok_bounds _ msg.instructions cis hci
            (fun i hi => referenced_program_in_finalKeys msg s0.publicKey i hi)
            ci hc
        · intro i hi
          exact ⟨referenced_program_in_finalKeys msg s0.publicKey i hi,
            fun ac hac =>
              referenced_account_in_finalKeys msg s0.publicKey i ac hi hac⟩
  · intro keys instrs
    rw [compileInstructions_error_iff]
    simp

/-- Witness for C5: in the concrete compiled message the program index 2
is a valid position into the three account keys. -/
theorem C5_compile_indices_valid_witness :
    (2 : Nat) < wCompiled.accountKeys.length :=
  ((C5_compile_indices_valid.1 wMsgTx [cxSigner] wCompiled rfl).1
    ⟨[0, 1], [2, 0, 0, 0], 2⟩ (by simp [wCompiled])).1

/-! ## Base-58 round trip (claim C9) -/

theorem bytesToNat_append (v : List Byte) (b : Byte) :
    bytesToNat (v ++ [b]) = bytesToNat v * 256 + b := by
  simp [bytesToNat, List.foldl_append]

theorem natToBytes_bytesToNat (v : List Byte) (hb : ∀ b ∈ v, b < 256) :
    natToBytes v.length (bytesToNat v) = v := by
  induction v using List.reverseRecOn with
  | nil => rfl
  | append_singleton v b ih =>
    have hblt : b < 256 := hb b (List.mem_append_right v (by simp))
    have hlen : (v ++ [b]).length = v.length + 1 := by simp
    rw [hlen, bytesToNat_append]
    show natToBytes v.length ((bytesToNat v * 256 + b) / 256)
        ++ [(bytesToNat v * 256 + b) % 256] = v ++ [b]
    have hdiv : (bytesToNat v * 256 + b) / 256 = bytesToNat v := by
      rw [Nat.add_comm, Nat.add_mul_div_right _ _ (by omega : 0 < 256),
        Nat.div_eq_of_lt hblt, Nat.zero_add]
    have hmod : (bytesToNat v * 256 + b) % 256 = b := by
      rw [Nat.add_comm, Nat.add_mul_mod_self_right, Nat.mod_eq_of_lt hblt]
    rw [hdiv, hmod, ih (fun x hx => hb x (List.mem_append_left _ hx))]

theorem b58Value_b58Char : ∀ d < 58, b58Value (b58Char d) = d := by decide

theorem b58Value_one : b58Value '1' = 0 := by decide

theorem parse_replicate_ones (z : Nat) :
    (List.replicate z '1').foldl (fun acc c => acc * 58 + b58Value c) 0 = 0 := by
  induction z with
  | zero => rfl
  | succ n ih => simpa [List.replicate_succ, b58Value_one] using ih

theorem parse_rev_digits (L : List Nat) (hd : ∀ d ∈ L, d < 58) (acc : Nat) :
    ((L.reverse.map b58Char).foldl (fun acc c => acc * 58 + b58Value c) acc)
      = acc * 58 ^ L.length + Nat.ofDigits 58 L := by
  induction L generalizing acc with
  | nil => simp [Nat.ofDigits]
  | cons d T ih =>
    have hdlt : d < 58 := hd d (List.mem_cons_self d T)
    have hT : ∀ x ∈ T, x < 58 := fun x hx => hd x (List.mem_cons_of_mem d hx)
    rw [List.reverse_cons, List.map_append, List.foldl_append, ih hT acc]
    simp only [List.map_cons, List.map_nil, List.foldl_cons, List.foldl_nil]
    rw [b58Value_b58Char d hdlt, Nat.ofDigits_cons, List.length_cons, pow_succ]
    ring

/-- C9: converting any 32-byte value to its base-58 text form and
constructing an Address back from that text yields the value again. -/
theorem C9_base58_roundtrip (v : List Byte) (hl : v.length = 32)
    (hb : ∀ b ∈ v, b < 256) : from_base58 (to_base58 v) = v := by
  unfold to_base58 from_base58
  have hdata : (⟨List.replicate (v.takeWhile (fun b => b = 0)).length '1'
      ++ ((Nat.digits 58 (bytesToNat v)).reverse.map b58Char)⟩ : String).data
      = List.replicate (v.takeWhile (fun b => b = 0)).length '1'
        ++ ((Nat.digits 58 (bytesToNat v)).reverse.map b58Char) := rfl
  rw [hdata, List.foldl_append, parse_replicate_ones,
    parse_rev_digits (Nat.digits 58 (bytesToNat v))
      (fun d hdm => Nat.digits_lt_base (by norm_num) hdm) 0]
  simp only [Nat.zero_mul, Nat.zero_add]
  rw [Nat.ofDigits_digits, ← hl]
  exact natToBytes_bytesToNat v hb

/-- Witness for C9 at a concrete 32-byte value. -/
theorem C9_base58_roundtrip_witness :
    from_base58 (to_base58 (3 :: List.replicate 31 7))
      = 3 :: List.replicate 31 7 :=
  C9_base58_roundtrip (3 :: List.replicate 31 7) (by decide) (by decide)

end Solana
